import Mathlib

/-!
Verification development for `src/stab_query_segment_tree.py`: a heap-based,
coordinate-compressed segment tree answering stabbing queries (how many of the
inserted closed intervals contain a given point).

Embedding conventions:
* Python integers are `Int` (indices and sizes also appear as `Nat` where the
  source guarantees non-negativity).
* `int(math.floor(x / 2))` on integer `x` is floor division by `2`; Lean's `/`
  on `Int` is Euclidean division, which coincides with floor division for the
  positive divisor `2`.  `int(total/2)` truncates toward zero and is `Int.tdiv`.
* `bisect.bisect_right` (only ever applied to the sorted, duplicate-free
  `points` list) is modelled by its contract on sorted lists: the rightmost
  insertion point, i.e. the number of leading elements that are `≤ x`.
* The floating-point expressions in `complete` / `lowest_incomplete`
  (`math.log`, `2 ** t`, float division) are modelled by their exact real
  values, turned into executable integer arithmetic; for every magnitude the
  program can realistically reach, the IEEE-754 double evaluation performed by
  the source agrees with the exact real value (the relevant sub-expressions are
  either exactly representable dyadic computations or floors of logarithms that
  are far from integer boundaries).  `math.log x` raises `ValueError` for
  `x ≤ 0`, so the fallible functions return `Option`.
* Python `while` loops become fuel-structured recursions; each call site
  passes fuel exceeding the number of iterations the loop can make there.
-/

namespace StabSeg

/-- Model of `bisect.bisect_right(points, x)` under the contract of the
`bisect` library on a sorted list (the only way the program uses it): the
rightmost insertion point, i.e. the number of leading elements `≤ x`, which on
a sorted list is the number of elements `≤ x`. -/
def bisect_right : List Int → Int → Int
  | [], _ => 0
  | y :: ys, x => if x < y then 0 else bisect_right ys x + 1

/-- Model of the statement `self.__tree[i] += 1`.  Every increment the program
performs lands inside the array, so the (unreachable) out-of-range and
negative-index cases are modelled as no-ops. -/
def treeInc (t : List Int) (i : Int) : List Int :=
  if i < 0 then t else t.set i.toNat (t.getD i.toNat 0 + 1)

/-- One iteration body of the `while l <= r` loop of `SegmentTree.insert`:
increment the count at an odd `l`, then increment the count at an even `r`
(the inner conditional is the `l` increment, performed first). -/
def insertStep (t : List Int) (l r : Int) : List Int :=
  if r % 2 = 0 then treeInc (if l % 2 = 1 then treeInc t l else t) r
  else if l % 2 = 1 then treeInc t l else t

/-- The `while l <= r` loop of `SegmentTree.insert`: run `insertStep`, then
move `l` to `(l+1)//2` and `r` to `(r-1)//2`.  Fuel-structured;
`SegmentTree.insert` passes more fuel than the loop can consume (`r`
decreases strictly on every iteration that runs). -/
def insertLoop : Nat → List Int → Int → Int → List Int
  | 0, t, _, _ => t
  | fuel + 1, t, l, r =>
    if l ≤ r then insertLoop fuel (insertStep t l r) ((l + 1) / 2) ((r - 1) / 2)
    else t

/-- The state of a built `SegmentTree`: the sorted coordinate list
`self.__points`, the flat node-count array `self.__tree`, and the leaf offset
`self.__N`. -/
structure SegmentTree where
  points : List Int
  tree : List Int
  N : Int

/-- `SegmentTree.insert(self, startpoint, endpoint)`: bottom-up range
increment over the leaves `startpoint + N .. endpoint + N`. -/
def SegmentTree.insert (st : SegmentTree) (startpoint endpoint : Int) : SegmentTree :=
  let l := startpoint + st.N
  let r := endpoint + st.N
  { st with tree := insertLoop ((r + 2).toNat + 1) st.tree l r }

/-- The compression the constructor applies to each raw interval endpoint
before calling `insert`: `bisect.bisect_right(self.__points, x) + 1`. -/
def compressPt (points : List Int) (x : Int) : Int :=
  bisect_right points x + 1

/-- The allocation part of `SegmentTree.__init__`, before any interval is
inserted: `total = 2n - 1`, a count array `[0] * int(total + 2)`, and
`N = int(total/2) - 1` (`int()` truncates toward zero). -/
def segmentTreeInit (points : List Int) : SegmentTree :=
  let n : Int := points.length
  let total : Int := 2 * n - 1
  { points := points
    tree := List.replicate (total + 2).toNat 0
    N := Int.tdiv total 2 - 1 }

/-- The body of the insertion loop in `SegmentTree.__init__`: compress both
endpoints of one segment and insert it. -/
def buildStep (points : List Int) (st : SegmentTree) (seg : Int × Int) : SegmentTree :=
  st.insert (compressPt points seg.1) (compressPt points seg.2)

/-- All of `SegmentTree.__init__(points, segments)`: allocate, then insert
every segment in order. -/
def segmentTreeNew (points : List Int) (segments : List (Int × Int)) : SegmentTree :=
  segments.foldl (buildStep points) (segmentTreeInit points)

/-- Sixty exact decimal digits of Euler's number:
`eNum / eDen < e < (eNum + 1) / eDen`. -/
def eNum : Nat := 2718281828459045235360287471352662497757247093699959574966967

/-- Denominator of the rational bounds for `e`. -/
def eDen : Nat := 10 ^ 60

/-- Scan computing `⌊ln x⌋` for `x ≥ 1`: largest `j` with `e ^ j ≤ x`,
decided through the rational bounds `eNum / eDen < e < (eNum + 1) / eDen`.
The scan steps from `j` to `j + 1` exactly when `e ^ (j+1) ≤ x` (up to the
`10 ^ (-60)`-wide ambiguity band around each power of `e`, which contains no
reachable integer). -/
def lnFloorAux (x : Nat) : Nat → Nat → Nat
  | 0, j => j
  | fuel + 1, j =>
    if (eNum + 1) ^ (j + 1) ≤ x * eDen ^ (j + 1) then lnFloorAux x fuel (j + 1) else j

/-- Model of `math.floor(math.log(x))` on an integer argument: `none` when
`x ≤ 0` (`math.log` raises `ValueError` there), otherwise the exact `⌊ln x⌋`
(the arguments the program produces are integers, so the result is never
negative).  The fuel `x.toNat` dominates the scan length because
`e ^ j ≤ x` forces `j < x`. -/
def lnFloor (x : Int) : Option Nat :=
  if x ≤ 0 then none else some (lnFloorAux x.toNat x.toNat 0)

/-- Number of trailing zero bits of `m` (fuel-structured so that it reduces in
the kernel); `ctzAux m m = k` where `2 ^ k` is the largest power of two
dividing `m ≠ 0`. -/
def ctzAux : Nat → Nat → Nat
  | 0, _ => 0
  | fuel + 1, m => if m % 2 = 1 ∨ m = 0 then 0 else ctzAux fuel (m / 2) + 1

/-- Twenty exact decimal digits of `2 ^ (ln 2)`:
`cNum / cDen < 2 ^ (ln 2) < (cNum + 1) / cDen`. -/
def cNum : Nat := 161680667224167466329

/-- Denominator of the rational bounds for `2 ^ (ln 2)`. -/
def cDen : Nat := 10 ^ 20

/-- Model of `SegmentTree.lowest_incomplete` (its `node` argument is unused in
the source):
`t = math.log(N & -N)` and the result is `int(math.floor(N / 2 ** (1 + t)))`.
`N & -N` on Python's two's-complement integers is the largest power of two
dividing `N` (and `1` for `N = -1`, the only negative value the program
produces), so with `N = m * 2 ^ k`, `m` odd, the result is
`⌊N / 2 ^ (1 + k * ln 2)⌋`:
* `N = 0`: `math.log 0` raises `ValueError`, hence `none`;
* `k = 0` (`N` odd, including `N = -1`): `t = ln 1 = 0` exactly (this case is
  even float-exact in the source) and the result is `⌊N / 2⌋`;
* `k ≥ 1` (`N` a positive even number here): the exact real floor computed
  through the rational bounds on `2 ^ (ln 2)`, using the upper bound so that
  the division under-approximates; exact for every reachable magnitude. -/
def lowest_incomplete (N : Int) : Option Int :=
  if N = 0 then none
  else if N.natAbs % 2 = 1 then some (N / 2)
  else
    let k := ctzAux N.natAbs N.natAbs
    some (((N.toNat * cDen ^ k) / (2 * (cNum + 1) ^ k) : Nat) : Int)

/-- Model of `SegmentTree.complete(node)`:
`formula = 2 ** (⌊ln li⌋ - ⌊ln node⌋)` with `li = lowest_incomplete(node)`,
`z = ⌊li / formula⌋`, and the result is `node == z`.  A `ValueError` from any
of the three `math.log` calls propagates as `none`.  For a non-negative
exponent `d` the Python division `li / 2 ** d` is floor division after
`math.floor`; for a negative `d` it is exact multiplication by `2 ^ (-d)`. -/
def complete (N node : Int) : Option Bool :=
  match lowest_incomplete N with
  | none => none
  | some li =>
    match lnFloor li, lnFloor node with
    | some a, some b =>
      let d : Int := (a : Int) - (b : Int)
      some (node == (if 0 ≤ d then li / 2 ^ d.toNat else li * 2 ^ (-d).toNat))
    | _, _ => none

/-- The ascent loop of `SegmentTree.stab_query`: while the current node is not
`complete`, add its count, halve the index, and stop as soon as the index
reaches `0`.  A `ValueError` raised by `complete` propagates as `none`.  The
count is read at `node.toNat`; the loop only reads when
`complete` returned `some false`, which forces `1 ≤ node`.  Fuel-structured;
`stab_query` passes `node.toNat + 1`, which exceeds the number of halvings
down to `0`. -/
def stabLoop (t : List Int) (N : Int) : Nat → Int → Option Int
  | 0, _ => none
  | fuel + 1, node =>
    match complete N node with
    | none => none
    | some true => some 0
    | some false =>
      if node / 2 = 0 then some (t.getD node.toNat 0)
      else
        match stabLoop t N fuel (node / 2) with
        | none => none
        | some s => some (t.getD node.toNat 0 + s)

/-- `SegmentTree.stab_query(self, point)`: map the point to its leaf index
`bisect_right(points, point) + N + 1` and ascend. -/
def SegmentTree.stab_query (st : SegmentTree) (point : Int) : Option Int :=
  let node : Int := bisect_right st.points point + st.N + 1
  stabLoop st.tree st.N (node.toNat + 1) node

/-- Modelled from the spec (the reference notion the code is measured
against): the number of inserted intervals `(start, end)` with
`start ≤ p ≤ end`, both endpoints inclusive. -/
def specCoverage (segments : List (Int × Int)) (p : Int) : Nat :=
  (segments.filter (fun se => decide (se.1 ≤ p ∧ p ≤ se.2))).length

/-- The deterministic part of the reference scenario's coordinate set (the
coordinates that `test_toy_set` appends besides its random filler). -/
def refPoints : List Int :=
  [3, 4, 6, 7, 8, 9, 10, 20, 50, 76, 89, 1000, 7000000]

/-- The deterministic part of the reference scenario's interval multiset
(the random filler intervals it adds are all inverted with both endpoints in
the coordinate set, so they compress to an empty range and contribute
nothing). -/
def refSegments : List (Int × Int) :=
  [(3, 4), (3, 4), (3, 4), (3, 4), (3, 6), (10, 20), (6, 50), (3, 3), (1000, 7000000)]

/-! ### Basic facts about the embedded operations -/

theorem bisect_right_nonneg (pts : List Int) (x : Int) : 0 ≤ bisect_right pts x := by
  induction pts with
  | nil => simp [bisect_right]
  | cons y ys ih =>
    simp only [bisect_right]
    split
    · exact le_refl 0
    · omega

theorem bisect_right_le_length (pts : List Int) (x : Int) :
    bisect_right pts x ≤ pts.length := by
  induction pts with
  | nil => simp [bisect_right]
  | cons y ys ih =>
    simp only [bisect_right, List.length_cons]
    split
    · omega
    · push_cast
      omega

/-- On a strictly sorted list, the modelled `bisect_right` is the number of
elements `≤ x`. -/
theorem bisect_right_eq_countP (pts : List Int) (hs : pts.Pairwise (· < ·)) (x : Int) :
    bisect_right pts x = (pts.countP (fun y => decide (y ≤ x)) : Int) := by
  induction pts with
  | nil => simp [bisect_right]
  | cons y ys ih =>
    rcases List.pairwise_cons.mp hs with ⟨hy, hys⟩
    simp only [bisect_right, List.countP_cons]
    by_cases hxy : x < y
    · have hzero : ys.countP (fun z => decide (z ≤ x)) = 0 := by
        rw [List.countP_eq_zero]
        intro z hz
        have := hy z hz
        simp only [decide_eq_true_eq]
        omega
      simp [hxy, hzero, show ¬(y ≤ x) by omega]
    · have : (y ≤ x) := by omega
      simp [hxy, ih hys, this]

theorem treeInc_length (t : List Int) (i : Int) : (treeInc t i).length = t.length := by
  unfold treeInc
  split
  · rfl
  · exact List.length_set t i.toNat _

theorem insertStep_length (t : List Int) (l r : Int) :
    (insertStep t l r).length = t.length := by
  unfold insertStep
  split <;> split <;> simp [treeInc_length]

theorem insertLoop_length (fuel : Nat) (t : List Int) (l r : Int) :
    (insertLoop fuel t l r).length = t.length := by
  induction fuel generalizing t l r with
  | zero => rfl
  | succ fuel ih =>
    unfold insertLoop
    split
    · rw [ih, insertStep_length]
    · rfl

theorem insert_points (st : SegmentTree) (a b : Int) : (st.insert a b).points = st.points := rfl

theorem insert_N (st : SegmentTree) (a b : Int) : (st.insert a b).N = st.N := rfl

theorem insert_tree_length (st : SegmentTree) (a b : Int) :
    (st.insert a b).tree.length = st.tree.length :=
  insertLoop_length _ _ _ _

theorem foldl_buildStep_points (pts : List Int) (segs : List (Int × Int)) (st : SegmentTree) :
    (segs.foldl (buildStep pts) st).points = st.points := by
  induction segs generalizing st with
  | nil => rfl
  | cons s ss ih => rw [List.foldl_cons, ih]; rfl

theorem foldl_buildStep_N (pts : List Int) (segs : List (Int × Int)) (st : SegmentTree) :
    (segs.foldl (buildStep pts) st).N = st.N := by
  induction segs generalizing st with
  | nil => rfl
  | cons s ss ih => rw [List.foldl_cons, ih]; rfl

theorem foldl_buildStep_tree_length (pts : List Int) (segs : List (Int × Int))
    (st : SegmentTree) : (segs.foldl (buildStep pts) st).tree.length = st.tree.length := by
  induction segs generalizing st with
  | nil => rfl
  | cons s ss ih => rw [List.foldl_cons, ih, buildStep, insert_tree_length]

theorem segmentTreeInit_tree (pts : List Int) :
    (segmentTreeInit pts).tree = List.replicate (2 * pts.length + 1) 0 := by
  simp only [segmentTreeInit]
  congr 1
  omega

theorem segmentTreeInit_N (pts : List Int) (h : pts ≠ []) :
    (segmentTreeInit pts).N = (pts.length : Int) - 2 := by
  simp only [segmentTreeInit]
  have hlen : 1 ≤ pts.length := List.length_pos.mpr h
  have hnn : (0 : Int) ≤ 2 * (pts.length : Int) - 1 := by omega
  rw [Int.tdiv_eq_ediv hnn (by omega)]
  omega

theorem segmentTreeNew_points (pts : List Int) (segs : List (Int × Int)) :
    (segmentTreeNew pts segs).points = pts :=
  foldl_buildStep_points pts segs _

theorem segmentTreeNew_N (pts : List Int) (segs : List (Int × Int)) (h : pts ≠ []) :
    (segmentTreeNew pts segs).N = (pts.length : Int) - 2 := by
  rw [segmentTreeNew, foldl_buildStep_N, segmentTreeInit_N pts h]

theorem segmentTreeNew_tree_length (pts : List Int) (segs : List (Int × Int)) :
    (segmentTreeNew pts segs).tree.length = 2 * pts.length + 1 := by
  rw [segmentTreeNew, foldl_buildStep_tree_length, segmentTreeInit_tree,
    List.length_replicate]

/-! ### The stopping rule and the ascent loop -/

/-- At a non-positive node index `complete` raises (`math.log node` is
evaluated on every call). -/
theorem complete_none_of_nonpos (N node : Int) (hn : node ≤ 0) :
    complete N node = none := by
  have hnone : lnFloor node = none := by
    unfold lnFloor
    rw [if_pos hn]
  unfold complete
  split
  · rfl
  · rw [hnone]
    cases lnFloor _ <;> rfl

/-- `complete` can only answer (rather than raise) at a positive node index. -/
theorem complete_pos (N node : Int) (b : Bool) (h : complete N node = some b) :
    1 ≤ node := by
  by_contra hn
  rw [complete_none_of_nonpos N node (by omega)] at h
  exact absurd h (by simp)

/-- For an odd `N ≥ 2` (so `N ≥ 3`), `lowest_incomplete` takes the exact,
even float-exact, branch `⌊N / 2⌋`. -/
theorem lowest_incomplete_odd (N : Int) (hodd : N.natAbs % 2 = 1) (hne : N ≠ 0) :
    lowest_incomplete N = some (N / 2) := by
  unfold lowest_incomplete
  rw [if_neg hne, if_pos hodd]

/-- For an odd `N ≥ 2` the stopping rule never raises at a positive node. -/
theorem complete_isSome_of_odd (N node : Int) (hodd : N.natAbs % 2 = 1) (hN : 2 ≤ N)
    (hnode : 1 ≤ node) : (complete N node).isSome := by
  have hli : lowest_incomplete N = some (N / 2) :=
    lowest_incomplete_odd N hodd (by omega)
  have h1 : lnFloor (N / 2) = some (lnFloorAux (N / 2).toNat (N / 2).toNat 0) := by
    unfold lnFloor
    rw [if_neg (by omega)]
  have h2 : lnFloor node = some (lnFloorAux node.toNat node.toNat 0) := by
    unfold lnFloor
    rw [if_neg (by omega)]
  unfold complete
  split
  · rename_i heq
    rw [heq] at hli
    exact absurd hli (by simp)
  · rename_i li heq
    rw [heq] at hli
    have hlieq : li = N / 2 := by
      simpa using hli
    subst hlieq
    split
    · rfl
    · rename_i hbad
      exact absurd (hbad _ _ h1 h2) (by simp)

/-- If the stopping rule answers at every positive node, the ascent loop
returns a value whenever its fuel exceeds the initial node index. -/
theorem stabLoop_some (t : List Int) (N : Int)
    (hc : ∀ m : Int, 1 ≤ m → (complete N m).isSome) :
    ∀ (fuel : Nat) (node : Int), 1 ≤ node → node.toNat < fuel →
      ∃ c, stabLoop t N fuel node = some c := by
  intro fuel
  induction fuel with
  | zero => intro node h1 h2; omega
  | succ fuel ih =>
    intro node h1 h2
    obtain ⟨b, hb⟩ := Option.isSome_iff_exists.mp (hc node h1)
    unfold stabLoop
    rw [hb]
    cases b with
    | true => exact ⟨0, rfl⟩
    | false =>
      by_cases hz : node / 2 = 0
      · rw [if_pos hz]
        exact ⟨_, rfl⟩
      · rw [if_neg hz]
        obtain ⟨c, hcc⟩ := ih (node / 2) (by omega) (by omega)
        rw [hcc]
        exact ⟨_, rfl⟩

/-- The ascent loop is insensitive to its fuel once the fuel exceeds the
initial node index: the loop has converged by then, because the node index
strictly decreases under halving and the loop stops at `0` at the latest. -/
theorem stabLoop_fuel (t : List Int) (N : Int) :
    ∀ (f1 f2 : Nat) (node : Int), node.toNat < f1 → node.toNat < f2 →
      stabLoop t N f1 node = stabLoop t N f2 node := by
  intro f1
  induction f1 with
  | zero => intro f2 node h1 h2; omega
  | succ f1 ih =>
    intro f2 node h1 h2
    cases f2 with
    | zero => omega
    | succ f2 =>
      unfold stabLoop
      cases hb : complete N node with
      | none => rfl
      | some b =>
        cases b with
        | true => rfl
        | false =>
          have hpos := complete_pos N node false hb
          by_cases hz : node / 2 = 0
          · rw [if_pos hz, if_pos hz]
          · rw [if_neg hz, if_neg hz, ih f2 (node / 2) (by omega) (by omega)]

/-! ### Non-negativity of counts -/

theorem getD_nonneg (t : List Int) (h : ∀ v ∈ t, 0 ≤ v) (n : Nat) : 0 ≤ t.getD n 0 := by
  rw [List.getD_eq_getElem?_getD]
  cases hg : t[n]? with
  | none => simp
  | some v =>
    simp only [Option.getD_some]
    exact h v (List.getElem?_mem hg)

theorem treeInc_nonneg (t : List Int) (i : Int) (h : ∀ v ∈ t, 0 ≤ v) :
    ∀ v ∈ treeInc t i, 0 ≤ v := by
  unfold treeInc
  split
  · exact h
  · intro v hv
    rcases List.mem_or_eq_of_mem_set hv with hmem | heq
    · exact h v hmem
    · subst heq
      have := getD_nonneg t h i.toNat
      omega

theorem insertStep_nonneg (t : List Int) (l r : Int) (h : ∀ v ∈ t, 0 ≤ v) :
    ∀ v ∈ insertStep t l r, 0 ≤ v := by
  unfold insertStep
  split
  · split
    · exact treeInc_nonneg _ _ (treeInc_nonneg _ _ h)
    · exact treeInc_nonneg _ _ h
  · split
    · exact treeInc_nonneg _ _ h
    · exact h

theorem insertLoop_nonneg (fuel : Nat) (t : List Int) (l r : Int) (h : ∀ v ∈ t, 0 ≤ v) :
    ∀ v ∈ insertLoop fuel t l r, 0 ≤ v := by
  induction fuel generalizing t l r with
  | zero => exact h
  | succ fuel ih =>
    unfold insertLoop
    split
    · exact ih _ _ _ (insertStep_nonneg _ _ _ h)
    · exact h

theorem segmentTreeNew_nonneg (pts : List Int) (segs : List (Int × Int)) :
    ∀ v ∈ (segmentTreeNew pts segs).tree, 0 ≤ v := by
  have init : ∀ v ∈ (segmentTreeInit pts).tree, 0 ≤ v := by
    rw [segmentTreeInit_tree]
    intro v hv
    rw [List.eq_of_mem_replicate hv]
  rw [segmentTreeNew]
  generalize segmentTreeInit pts = st at init ⊢
  induction segs generalizing st with
  | nil => exact init
  | cons s ss ih =>
    rw [List.foldl_cons]
    exact ih _ (insertLoop_nonneg _ _ _ _ init)

theorem stabLoop_nonneg (t : List Int) (N : Int) (h : ∀ v ∈ t, 0 ≤ v) :
    ∀ (fuel : Nat) (node : Int) (c : Int), stabLoop t N fuel node = some c → 0 ≤ c := by
  intro fuel
  induction fuel with
  | zero =>
    intro node c hc
    exact absurd hc (by simp [stabLoop])
  | succ fuel ih =>
    intro node c hc
    unfold stabLoop at hc
    cases hb : complete N node with
    | none => rw [hb] at hc; exact absurd hc (by simp)
    | some b =>
      rw [hb] at hc
      cases b with
      | true =>
        simp only [Option.some_inj] at hc
        omega
      | false =>
        by_cases hz : node / 2 = 0
        · rw [if_pos hz] at hc
          simp only [Option.some_inj] at hc
          have := getD_nonneg t h node.toNat
          omega
        · rw [if_neg hz] at hc
          cases hs : stabLoop t N fuel (node / 2) with
          | none => rw [hs] at hc; exact absurd hc (by simp)
          | some s =>
            rw [hs] at hc
            simp only [Option.some_inj] at hc
            have h1 := ih (node / 2) s hs
            have h2 := getD_nonneg t h node.toNat
            omega

/-! ### Commutativity of insertions -/

theorem treeInc_neg (t : List Int) (i : Int) (h : i < 0) : treeInc t i = t := by
  unfold treeInc
  rw [if_pos h]

theorem treeInc_def (t : List Int) (i : Int) (h : ¬i < 0) :
    treeInc t i = t.set i.toNat (t.getD i.toNat 0 + 1) := by
  unfold treeInc
  rw [if_neg h]

theorem getD_set_ne (t : List Int) (i j : Nat) (v : Int) (hne : i ≠ j) :
    (t.set i v).getD j 0 = t.getD j 0 := by
  rw [List.getD_eq_getElem?_getD, List.getElem?_set_ne hne, ← List.getD_eq_getElem?_getD]

/-- Two increments commute. -/
theorem treeInc_comm (t : List Int) (i j : Int) :
    treeInc (treeInc t i) j = treeInc (treeInc t j) i := by
  by_cases hi : i < 0
  · rw [treeInc_neg t i hi, treeInc_neg (treeInc t j) i hi]
  by_cases hj : j < 0
  · rw [treeInc_neg t j hj, treeInc_neg (treeInc t i) j hj]
  by_cases hij : i.toNat = j.toNat
  · have heq : i = j := by omega
    subst heq
    rfl
  · rw [treeInc_def t i hi, treeInc_def t j hj, treeInc_def _ j hj, treeInc_def _ i hi,
      getD_set_ne t i.toNat j.toNat _ hij, getD_set_ne t j.toNat i.toNat _ (Ne.symm hij),
      List.set_comm _ _ _ hij]

/-- `insertStep` only increments, so it commutes with a single increment. -/
theorem insertStep_treeInc (t : List Int) (l r i : Int) :
    insertStep (treeInc t i) l r = treeInc (insertStep t l r) i := by
  unfold insertStep
  by_cases h1 : l % 2 = 1 <;> by_cases h2 : r % 2 = 0
  · rw [if_pos h2, if_pos h2, if_pos h1, if_pos h1, treeInc_comm t i l,
      treeInc_comm (treeInc t l) i r]
  · rw [if_neg h2, if_neg h2, if_pos h1, if_pos h1, treeInc_comm t i l]
  · rw [if_pos h2, if_pos h2, if_neg h1, if_neg h1, treeInc_comm t i r]
  · rw [if_neg h2, if_neg h2, if_neg h1, if_neg h1]

/-- The whole insertion loop commutes with a single increment. -/
theorem insertLoop_treeInc (fuel : Nat) :
    ∀ (t : List Int) (l r i : Int),
      insertLoop fuel (treeInc t i) l r = treeInc (insertLoop fuel t l r) i := by
  induction fuel with
  | zero => intro t l r i; rfl
  | succ fuel ih =>
    intro t l r i
    unfold insertLoop
    by_cases hle : l ≤ r
    · rw [if_pos hle, if_pos hle, insertStep_treeInc, ih]
    · rw [if_neg hle, if_neg hle]

/-- `insertStep` commutes with a whole insertion loop. -/
theorem insertStep_insertLoop (fb : Nat) (t : List Int) (lb rb l r : Int) :
    insertStep (insertLoop fb t lb rb) l r = insertLoop fb (insertStep t l r) lb rb := by
  unfold insertStep
  by_cases h1 : l % 2 = 1 <;> by_cases h2 : r % 2 = 0
  · rw [if_pos h2, if_pos h2, if_pos h1, if_pos h1, insertLoop_treeInc, insertLoop_treeInc]
  · rw [if_neg h2, if_neg h2, if_pos h1, if_pos h1, insertLoop_treeInc]
  · rw [if_pos h2, if_pos h2, if_neg h1, if_neg h1, insertLoop_treeInc]
  · rw [if_neg h2, if_neg h2, if_neg h1, if_neg h1]

/-- Two insertion loops commute (each loop is a finite composition of
increments, and increments commute). -/
theorem insertLoop_comm (fa : Nat) :
    ∀ (fb : Nat) (t : List Int) (la ra lb rb : Int),
      insertLoop fa (insertLoop fb t lb rb) la ra
        = insertLoop fb (insertLoop fa t la ra) lb rb := by
  induction fa with
  | zero => intro fb t la ra lb rb; rfl
  | succ fa ih =>
    intro fb t la ra lb rb
    by_cases hle : la ≤ ra
    · calc insertLoop (fa + 1) (insertLoop fb t lb rb) la ra
          = insertLoop fa (insertStep (insertLoop fb t lb rb) la ra)
              ((la + 1) / 2) ((ra - 1) / 2) := by
            rw [insertLoop, if_pos hle]
        _ = insertLoop fa (insertLoop fb (insertStep t la ra) lb rb)
              ((la + 1) / 2) ((ra - 1) / 2) := by
            rw [insertStep_insertLoop]
        _ = insertLoop fb (insertLoop fa (insertStep t la ra)
              ((la + 1) / 2) ((ra - 1) / 2)) lb rb := ih fb _ _ _ lb rb
        _ = insertLoop fb (insertLoop (fa + 1) t la ra) lb rb := by
            conv_rhs => rw [insertLoop]
            rw [if_pos hle]
    · calc insertLoop (fa + 1) (insertLoop fb t lb rb) la ra
          = insertLoop fb t lb rb := by
            rw [insertLoop, if_neg hle]
        _ = insertLoop fb (insertLoop (fa + 1) t la ra) lb rb := by
            conv_rhs => rw [insertLoop]
            rw [if_neg hle]

/-- Two `SegmentTree.insert` calls commute. -/
theorem insert_comm (st : SegmentTree) (a1 a2 b1 b2 : Int) :
    (st.insert a1 a2).insert b1 b2 = (st.insert b1 b2).insert a1 a2 := by
  unfold SegmentTree.insert
  dsimp only
  congr 1
  exact insertLoop_comm _ _ _ _ _ _ _

/-- Two build-time insertions commute. -/
theorem buildStep_comm (pts : List Int) (st : SegmentTree) (a b : Int × Int) :
    buildStep pts (buildStep pts st a) b = buildStep pts (buildStep pts st b) a := by
  unfold buildStep
  exact insert_comm st _ _ _ _

/-- Folding the build-time insertions over a list of segments is invariant
under permutations of that list. -/
theorem foldl_buildStep_perm (pts : List Int) {l1 l2 : List (Int × Int)}
    (h : l1.Perm l2) : ∀ st, l1.foldl (buildStep pts) st = l2.foldl (buildStep pts) st := by
  induction h with
  | nil => intro st; rfl
  | cons x h ih =>
    intro st
    simp only [List.foldl_cons]
    exact ih _
  | swap x y l =>
    intro st
    simp only [List.foldl_cons]
    rw [buildStep_comm]
  | trans h1 h2 ih1 ih2 =>
    intro st
    rw [ih1, ih2]

/-- If the range is empty at entry, the insertion loop does nothing,
whatever its fuel. -/
theorem insertLoop_of_not_le (fuel : Nat) (t : List Int) (l r : Int) (h : ¬l ≤ r) :
    insertLoop fuel t l r = t := by
  cases fuel with
  | zero => rfl
  | succ fuel =>
    unfold insertLoop
    rw [if_neg h]

/-! ### The claims -/

/-- C1 (code_bug): the spec's count invariant — `stab_query p` equals the
number of inserted intervals `(start, end)` with `start ≤ p ≤ end` — is the
evident intent of the program (its own unit test asserts exactly these
counts on its instance), but the code violates it: building from the
coordinate set `{10,...,70}` of the endpoints of the four intervals
`(10,20), (30,40), (50,60), (60,70)` and querying the point `20`, the code
answers `0` although the interval `(10,20)` covers `20` (the ascent stops
immediately because the mis-derived stopping rule declares the query's leaf
node `complete`). -/
theorem c1_count_invariant_fails_on_code :
    (segmentTreeNew [10, 20, 30, 40, 50, 60, 70]
        [(10, 20), (30, 40), (50, 60), (60, 70)]).stab_query 20 = some 0 ∧
      specCoverage [(10, 20), (30, 40), (50, 60), (60, 70)] 20 = 1 :=
  ⟨by decide, by decide⟩

/-- C2 (confirmed): on the reference scenario — the listed coordinate set
and the listed interval multiset — the built tree answers
`stab_query 15 = 2`, `stab_query 3 = 6`, `stab_query 4 = 5`,
`stab_query 7 = 1`, `stab_query 6 = 2` and `stab_query 10000 = 1`. -/
theorem c2_reference_scenario :
    (segmentTreeNew refPoints refSegments).stab_query 15 = some 2 ∧
      (segmentTreeNew refPoints refSegments).stab_query 3 = some 6 ∧
      (segmentTreeNew refPoints refSegments).stab_query 4 = some 5 ∧
      (segmentTreeNew refPoints refSegments).stab_query 7 = some 1 ∧
      (segmentTreeNew refPoints refSegments).stab_query 6 = some 2 ∧
      (segmentTreeNew refPoints refSegments).stab_query 10000 = some 1 := by
  refine ⟨by decide, by decide, by decide, by decide, by decide, by decide⟩

/-- C3 (counterexample): on the non-empty coordinate set `[10, 20]` the
query `stab_query 10` does not complete — `N = 0`, so the stopping rule
evaluates `math.log(N & -N) = math.log 0`, which raises `ValueError`
(modelled as `none`). -/
theorem c3_small_tree_raises :
    ([10, 20] : List Int) ≠ [] ∧ (segmentTreeNew [10, 20] []).stab_query 10 = none :=
  ⟨by decide, by decide⟩

/-- C3 (amended): for every tree built from a coordinate set of odd size at
least `5` and every integer query point, `stab_query` completes without
error, and the initial leaf index of the ascent — the largest array index
the ascent reads, the later ones being its iterated halvings — lies inside
the node-count array. -/
theorem c3_safe_for_odd_size (pts : List Int) (segs : List (Int × Int)) (p : Int)
    (hodd : pts.length % 2 = 1) (hlen : 5 ≤ pts.length) :
    (∃ c, (segmentTreeNew pts segs).stab_query p = some c) ∧
      (bisect_right pts p + (segmentTreeNew pts segs).N + 1).toNat
        < (segmentTreeNew pts segs).tree.length := by
  have hne : pts ≠ [] := by
    intro h
    rw [h] at hlen
    exact absurd hlen (by decide)
  have hN : (segmentTreeNew pts segs).N = (pts.length : Int) - 2 :=
    segmentTreeNew_N pts segs hne
  have hpts : (segmentTreeNew pts segs).points = pts :=
    segmentTreeNew_points pts segs
  have hlen2 : (segmentTreeNew pts segs).tree.length = 2 * pts.length + 1 :=
    segmentTreeNew_tree_length pts segs
  have hbr0 : 0 ≤ bisect_right pts p := bisect_right_nonneg pts p
  have hbr1 : bisect_right pts p ≤ (pts.length : Int) := by
    exact_mod_cast bisect_right_le_length pts p
  have hcs : ∀ m : Int, 1 ≤ m → (complete ((pts.length : Int) - 2) m).isSome :=
    fun m hm => complete_isSome_of_odd _ m (by omega) (by omega) hm
  constructor
  · simp only [SegmentTree.stab_query, hpts, hN]
    exact stabLoop_some _ _ hcs _ _ (by omega) (by omega)
  · rw [hN, hlen2]
    omega

/-- Witness for C3 (amended) at a concrete five-point tree. -/
theorem c3_safe_for_odd_size_witness :
    (∃ c, (segmentTreeNew [10, 20, 30, 40, 50] [(10, 30)]).stab_query 25 = some c) ∧
      (bisect_right [10, 20, 30, 40, 50] 25
          + (segmentTreeNew [10, 20, 30, 40, 50] [(10, 30)]).N + 1).toNat
        < (segmentTreeNew [10, 20, 30, 40, 50] [(10, 30)]).tree.length :=
  c3_safe_for_odd_size [10, 20, 30, 40, 50] [(10, 30)] 25 (by decide) (by decide)

/-- C4 (counterexample): on a five-point coordinate set the leaf offset is
`3`, not `n - 1 = 4`: the constructor computes `int((2n-1)/2) - 1 = n - 2`. -/
theorem c4_leaf_offset_not_n_minus_one :
    (segmentTreeNew [10, 20, 30, 40, 50] []).N
      ≠ (([10, 20, 30, 40, 50] : List Int).length : Int) - 1 := by
  decide

/-- C4 (amended): for every non-empty coordinate set of size `n`, build
defines the leaf offset `N` to be exactly `n - 2`. -/
theorem c4_leaf_offset (pts : List Int) (segs : List (Int × Int)) (h : pts ≠ []) :
    (segmentTreeNew pts segs).N = (pts.length : Int) - 2 :=
  segmentTreeNew_N pts segs h

/-- Witness for C4 (amended) at a concrete five-point tree. -/
theorem c4_leaf_offset_witness :
    (segmentTreeNew [10, 20, 30, 40, 50] []).N
      = (([10, 20, 30, 40, 50] : List Int).length : Int) - 2 :=
  c4_leaf_offset [10, 20, 30, 40, 50] [] (by decide)

/-- C5 (counterexample): on a five-point coordinate set the allocated
node-count array has `11` entries, not `2n = 10`: the constructor allocates
`[0] * int((2n - 1) + 2)`. -/
theorem c5_array_size_not_2n :
    (segmentTreeInit [10, 20, 30, 40, 50]).tree.length
      ≠ 2 * ([10, 20, 30, 40, 50] : List Int).length := by
  decide

/-- C5 (amended): for every coordinate set of size `n`, build allocates a
node-count array of exactly `2n + 1` entries, all zero, before any interval
is inserted. -/
theorem c5_array_alloc (pts : List Int) :
    (segmentTreeInit pts).tree = List.replicate (2 * pts.length + 1) 0 :=
  segmentTreeInit_tree pts

/-- C6 (confirmed): on a sorted duplicate-free coordinate list the
compression applied to an interval endpoint during build (`compressPt`) and
the one applied to a query point inside `stab_query` (leaf index minus the
offset) are the same function, equal to the number of coordinates `≤ x`
plus one. -/
theorem c6_compression_consistent (pts : List Int) (hs : pts.Pairwise (· < ·))
    (x NN : Int) :
    bisect_right pts x + NN + 1 = compressPt pts x + NN ∧
      compressPt pts x = (pts.countP (fun y => decide (y ≤ x)) : Int) + 1 := by
  constructor
  · unfold compressPt
    ring
  · unfold compressPt
    rw [bisect_right_eq_countP pts hs x]

/-- Witness for C6 at a concrete sorted list. -/
theorem c6_compression_consistent_witness :
    bisect_right [3, 7, 9] 7 + 5 + 1 = compressPt [3, 7, 9] 7 + 5 ∧
      compressPt [3, 7, 9] 7
        = (([3, 7, 9] : List Int).countP (fun y => decide (y ≤ (7 : Int))) : Int) + 1 :=
  c6_compression_consistent [3, 7, 9] (by decide) 7 5

/-- C7 (counterexample): inserting the inverted interval `(25, 22)` (with
`22 < 25`, both endpoints falling strictly between the same two
coordinates) into the tree built on `[10, 20, 30, 40, 50]` changes the
node-count array: both endpoints compress to the same rank, the loop runs
one iteration and increments one leaf. -/
theorem c7_inverted_interval_changes_array :
    (22 : Int) < 25 ∧
      (segmentTreeNew [10, 20, 30, 40, 50] [(25, 22)]).tree
        ≠ (segmentTreeNew [10, 20, 30, 40, 50] []).tree :=
  ⟨by decide, by decide⟩

/-- C7 (amended): inserting an interval whose compressed start rank exceeds
its compressed end rank — which holds for an inverted interval exactly when
some coordinate lies in `(end, start]`, in particular whenever its endpoints
are themselves coordinates — leaves the node-count array unchanged, so it
contributes zero to every `stab_query`. -/
theorem c7_inverted_separated_unchanged (st : SegmentTree) (s e : Int)
    (h : compressPt st.points e < compressPt st.points s) :
    (st.insert (compressPt st.points s) (compressPt st.points e)).tree = st.tree := by
  unfold SegmentTree.insert
  dsimp only
  exact insertLoop_of_not_le _ _ _ _ (by omega)

/-- Witness for C7 (amended) at a concrete tree and inverted interval. -/
theorem c7_inverted_separated_unchanged_witness :
    ((segmentTreeNew [10, 20, 30, 40, 50] []).insert
        (compressPt (segmentTreeNew [10, 20, 30, 40, 50] []).points 30)
        (compressPt (segmentTreeNew [10, 20, 30, 40, 50] []).points 15)).tree
      = (segmentTreeNew [10, 20, 30, 40, 50] []).tree :=
  c7_inverted_separated_unchanged (segmentTreeNew [10, 20, 30, 40, 50] []) 30 15 (by decide)

/-- C8 (confirmed): building from any two orderings of the same interval
multiset yields identical trees — in particular identical node-count
arrays — and hence identical `stab_query` results at every point. -/
theorem c8_order_independence (pts : List Int) (segs1 segs2 : List (Int × Int))
    (h : segs1.Perm segs2) :
    segmentTreeNew pts segs1 = segmentTreeNew pts segs2 ∧
      ∀ p : Int, (segmentTreeNew pts segs1).stab_query p
        = (segmentTreeNew pts segs2).stab_query p := by
  have heq : segmentTreeNew pts segs1 = segmentTreeNew pts segs2 := by
    unfold segmentTreeNew
    exact foldl_buildStep_perm pts h _
  exact ⟨heq, fun p => by rw [heq]⟩

/-- Witness for C8 at a concrete two-interval permutation. -/
theorem c8_order_independence_witness :
    segmentTreeNew [10, 20, 30, 40, 50] [(10, 30), (20, 40)]
        = segmentTreeNew [10, 20, 30, 40, 50] [(20, 40), (10, 30)] ∧
      ∀ p : Int, (segmentTreeNew [10, 20, 30, 40, 50] [(10, 30), (20, 40)]).stab_query p
        = (segmentTreeNew [10, 20, 30, 40, 50] [(20, 40), (10, 30)]).stab_query p :=
  c8_order_independence [10, 20, 30, 40, 50] _ _ (by decide)

/-- C9 (confirmed): after build every entry of the node-count array is
non-negative (insertion only increments), and consequently `stab_query`
returns a non-negative count whenever it returns at all. -/
theorem c9_counts_nonnegative (pts : List Int) (segs : List (Int × Int)) :
    (∀ v ∈ (segmentTreeNew pts segs).tree, 0 ≤ v) ∧
      ∀ p c : Int, (segmentTreeNew pts segs).stab_query p = some c → 0 ≤ c := by
  refine ⟨segmentTreeNew_nonneg pts segs, fun p c hc => ?_⟩
  exact stabLoop_nonneg _ _ (segmentTreeNew_nonneg pts segs) _ _ c hc

/-- Witness for C9: a concrete query returning a (non-negative) count. -/
theorem c9_counts_nonnegative_witness :
    ∃ c : Int, (segmentTreeNew [10, 20, 30, 40, 50] [(10, 30)]).stab_query 25 = some c
      ∧ 0 ≤ c :=
  ⟨1, by decide,
    (c9_counts_nonnegative [10, 20, 30, 40, 50] [(10, 30)]).2 25 1 (by decide)⟩

/-- C10 (confirmed): the ascent loop of `stab_query` terminates — the node
index strictly decreases under the halving `node / 2` and the loop stops at
index `0` at the latest — so the fuelled loop has converged as soon as its
fuel exceeds the initial node index: any such fuel computes exactly
`stab_query`. -/
theorem c10_ascent_terminates (st : SegmentTree) (p : Int) (fuel : Nat)
    (h : (bisect_right st.points p + st.N + 1).toNat < fuel) :
    stabLoop st.tree st.N fuel (bisect_right st.points p + st.N + 1)
      = st.stab_query p := by
  unfold SegmentTree.stab_query
  exact stabLoop_fuel st.tree st.N fuel _ _ h (by omega)

/-- Witness for C10 at a concrete tree with generous fuel. -/
theorem c10_ascent_terminates_witness :
    stabLoop (segmentTreeNew [10, 20, 30, 40, 50] []).tree
        (segmentTreeNew [10, 20, 30, 40, 50] []).N 100
        (bisect_right (segmentTreeNew [10, 20, 30, 40, 50] []).points 25
          + (segmentTreeNew [10, 20, 30, 40, 50] []).N + 1)
      = (segmentTreeNew [10, 20, 30, 40, 50] []).stab_query 25 :=
  c10_ascent_terminates (segmentTreeNew [10, 20, 30, 40, 50] []) 25 100 (by decide)

end StabSeg
